import Mathlib

/-!
Verification of the minimint core against its specification.

Part 1 embeds the threshold-blind-signature library
(src/crypto/tbs/src/lib.rs).  The BLS12-381 groups G1, G2 and GT used by
that code are cyclic of prime order q (the order of the scalar field).
Fixing the generators the code uses, the discrete-logarithm maps are group
isomorphisms from G1, G2 and GT onto the additive group of the scalar
field, they commute with every operation the code performs (scalar
multiplication, point addition, affine conversion), equality of points is
equality of discrete logarithms, and the pairing becomes multiplication of
discrete logarithms.  We therefore represent every curve point by its
discrete logarithm in a field `F` and scalars as elements of the same
field; witnesses instantiate `F` with a concrete prime field.

The polynomial helper module (src/crypto/tbs/src/poly.rs) is not among the
sources; its operations are modelled from the spec, as marked below.
-/

set_option maxHeartbeats 1600000
set_option linter.unusedSectionVars false

namespace Minimint

variable {F : Type} [Field F] [DecidableEq F]

/-- Modelled from the spec: `Poly::evaluate` from the missing
src/crypto/tbs/src/poly.rs.  Spec 4.1: a polynomial of degree d is the
coefficient list `[a0 ... ad]`, evaluated by Horner. -/
def evalPoly (coeffs : List F) (x : F) : F :=
  coeffs.foldr (fun a acc => a + x * acc) 0

/-- Modelled from the spec: the Lagrange basis value at zero used by
`interpolate_zero` in the missing src/crypto/tbs/src/poly.rs.
Spec 4.1: `L i 0 = prod over j other than i of x j * (x j - x i)⁻¹`. -/
def lagrangeZero (points : List (F × F)) (i : ℕ) : F :=
  ∏ j ∈ (Finset.range points.length).erase i,
    ((points.getD j (0, 0)).1 * ((points.getD j (0, 0)).1 - (points.getD i (0, 0)).1)⁻¹)

/-- Modelled from the spec: `interpolate_zero` from the missing
src/crypto/tbs/src/poly.rs.  Spec 4.1: computes the sum of
`y i * L i 0`; all x-coordinates must be distinct and nonzero, otherwise
the operation fails with `DegenerateInterpolation` (embedded as `none`). -/
def interpolate_zero (points : List (F × F)) : Option F :=
  if (points.map Prod.fst).Nodup ∧ (0 : F) ∉ points.map Prod.fst then
    some (∑ i ∈ Finset.range points.length,
      (points.getD i (0, 0)).2 * lagrangeZero points i)
  else none

/-- `dealer_keygen` with the random polynomial coefficients supplied
explicitly (the Rust code draws them from `OsRng`; `Poly::random(t-1)`
yields `t` coefficients).  Secret share at vector index `i` is the
polynomial evaluated at `i+1`; a public key is the G2 generator (discrete
logarithm 1) times the secret, and the aggregate key is the generator
times the polynomial at zero. -/
def dealer_keygen (coeffs : List F) (keys : ℕ) : F × List F × List F :=
  let sec_shares := (List.range keys).map (fun i => evalPoly coeffs ((i + 1 : ℕ) : F))
  let pub_shares := sec_shares.map (fun sk => 1 * sk)
  (1 * evalPoly coeffs 0, pub_shares, sec_shares)

/-- Rust `usize` subtraction panics on underflow; embedded as checked
subtraction returning `none` for the panic. -/
def checkedSub (a b : ℕ) : Option ℕ :=
  if a < b then none else some (a - b)

/-- The full `dealer_keygen(threshold, keys)` entry point including the
partiality of the `threshold - 1` subtraction feeding
`Poly::random(threshold - 1, rng)`: a degree-d random polynomial has d+1
coefficients, drawn here from the rng stream `rand`. -/
def dealer_keygen_rand (rand : ℕ → F) (threshold keys : ℕ) :
    Option (F × List F × List F) :=
  (checkedSub threshold 1).map
    (fun d => dealer_keygen ((List.range (d + 1)).map rand) keys)

/-- `blind_message`: a single draw of `Scalar::random` (no retry on zero,
the draw is the `rand` argument) and multiplication of the message point
by the drawn scalar. -/
def blind_message (msg : F) (rand : F) : F × F :=
  (rand, msg * rand)

/-- `BlindingKey::random()`: a single draw of `Scalar::random(OsRng)`,
no retry on zero. -/
def BlindingKey.random (rand : F) : F := rand

/-- `sign_blinded_msg`: the blinded message point times the secret key
share scalar. -/
def sign_blinded_msg (msg : F) (sks : F) : F := msg * sks

/-- `combine_valid_shares`: takes the first `threshold` pairs of the
iterator, maps index `idx` to x-coordinate `idx + 1`, and interpolates at
zero. -/
def combine_valid_shares (sig_shares : List (ℕ × F)) (threshold : ℕ) : Option F :=
  interpolate_zero ((sig_shares.take threshold).map
    (fun p => (((p.1 + 1 : ℕ) : F), p.2)))

/-- `unblind_signature`: multiplies by `blinding_key.invert().unwrap()`;
`invert` is empty exactly on the zero scalar, where `unwrap` panics
(embedded as `none`). -/
def unblind_signature (blinding_key : F) (blinded_sig : F) : Option F :=
  if blinding_key = 0 then none else some (blinded_sig * blinding_key⁻¹)

/-- `verify`: `pairing(msg, pk) == pairing(sig, g2)`; in discrete
logarithms the pairing of points with logarithms `a` and `b` is `a * b`,
and the G2 generator has logarithm 1. -/
def verify (msg : F) (sig : F) (pk : F) : Bool :=
  decide (msg * pk = sig * 1)

/-- `Aggregatable for Vec<PublicKeyShare>`: enumerate the shares, map
vector index `idx` to x-coordinate `idx + 1`, take the first `threshold`,
and interpolate at zero. -/
def aggregate (pub_shares : List F) (threshold : ℕ) : Option F :=
  interpolate_zero ((pub_shares.enum.map
    (fun p => (((p.1 + 1 : ℕ) : F), p.2))).take threshold)

/-- The Mathlib polynomial with the given coefficient list (proof-side
bridge only). -/
noncomputable def toPoly (coeffs : List F) : Polynomial F :=
  coeffs.foldr (fun a q => Polynomial.C a + Polynomial.X * q) 0

/-! A concrete five-element field used to instantiate witnesses.  Its
inverse is given by cubing (in GF(5), the inverse of a is a cubed), so the
kernel can evaluate every field operation. -/

structure K5 where
  val : ZMod 5
deriving DecidableEq, Fintype

instance : Zero K5 := ⟨⟨0⟩⟩

instance : One K5 := ⟨⟨1⟩⟩

instance : Add K5 := ⟨fun a b => ⟨a.val + b.val⟩⟩

instance : Mul K5 := ⟨fun a b => ⟨a.val * b.val⟩⟩

instance : Neg K5 := ⟨fun a => ⟨-a.val⟩⟩

instance : Inv K5 := ⟨fun a => ⟨a.val * a.val * a.val⟩⟩

instance : Field K5 :=
  Field.ofMinimalAxioms K5 (by decide) (by decide) (by decide) (by decide)
    (by decide) (by decide) (by decide) (by decide) (by decide) ⟨0, 1, by decide⟩

/-! Part 2: the consensus replica (src/minimint/src/consensus/mod.rs).

Transactions carry abstract module payloads; the stateless validators
(minimint-api) and the two federation modules (Mint, Wallet) are external
collaborators per spec 4.3, so they enter as an environment of functions
over an opaque module-state type `M`.  The KV store is modelled by its
typed views: the ProposedTransactionKey and AcceptedTransactionKey
entries (association lists keyed by transaction hash; the key encodings
of distinct key types are disjoint by construction) plus the module-owned
state, written only through the module hooks.  Missing repository file:
src/minimint/src/consensus/conflictfilter.rs — its filter is modelled
from the spec, as marked. -/

abbrev TxHash := ℕ

abbrev PeerId := ℕ

abbrev Nonce := ℕ

abbrev UtxoRef := ℕ

structure OutPoint where
  txid : TxHash
  out_idx : ℕ
deriving DecidableEq

inductive Input
  | Coins (notes : List Nonce)
  | PegIn (utxo : UtxoRef)
deriving DecidableEq

inductive Output
  | Coins (req : ℕ)
  | PegOut (req : ℕ)
deriving DecidableEq

/-- A transaction: ordered inputs and outputs plus its fingerprint
`tx_hash` (kept abstract as a field). -/
structure Transaction where
  inputs : List Input
  outputs : List Output
  hash : TxHash
deriving DecidableEq

structure AcceptedTransaction where
  epoch : ℕ
  transaction : Transaction
deriving DecidableEq

inductive ConsensusItem
  | Transaction (tx : Transaction)
  | Mint (item : ℕ)
  | Wallet (item : ℕ)
deriving DecidableEq

inductive TransactionSubmissionError
  | TransactionError (e : ℕ)
  | InputCoinError (e : ℕ)
  | InputPegIn (e : ℕ)
  | OutputCoinError (e : ℕ)
  | OutputPegOut (e : ℕ)
deriving DecidableEq

inductive OutputOutcome
  | Mint (outcome : ℕ)
  | Wallet (outcome : ℕ)
deriving DecidableEq

inductive TransactionStatus
  | AwaitingConsensus
  | Accepted (epoch : ℕ) (outputs : List OutputOutcome)
deriving DecidableEq

/-- The fatal invariant violation of a missing `output_status` (the code
panics through `expect`). -/
inductive Inconsistency
  | MissingOutputStatus
deriving DecidableEq

/-- The external interface the replica consumes: stateless transaction
validators and the capability surface of the Mint and Wallet modules over
module-local state `M`. -/
structure Env (M : Type) where
  validate_funding : Transaction → Except ℕ Unit
  validate_signature : Transaction → Except ℕ Unit
  mint_validate_input : List Nonce → Except ℕ Unit
  wallet_validate_input : UtxoRef → Except ℕ Unit
  mint_validate_output : ℕ → Except ℕ Unit
  wallet_validate_output : ℕ → Except ℕ Unit
  mint_apply_input : M → List Nonce → Except ℕ M
  wallet_apply_input : M → UtxoRef → Except ℕ M
  mint_apply_output : M → ℕ → OutPoint → Except ℕ M
  wallet_apply_output : M → ℕ → OutPoint → Except ℕ M
  wallet_begin_epoch : M → List (PeerId × ℕ) → M
  mint_begin_epoch : M → List (PeerId × ℕ) → M
  wallet_end_epoch : M → M
  mint_end_epoch : M → M
  mint_output_status : M → OutPoint → Option ℕ
  wallet_output_status : M → OutPoint → Option ℕ

/-- The typed view of the KV store used by the replica. -/
structure DB (M : Type) where
  proposed : List (TxHash × Transaction)
  accepted : List (TxHash × AcceptedTransaction)
  modules : M
deriving DecidableEq

def lookupKey {α : Type} (l : List (ℕ × α)) (k : ℕ) : Option α :=
  (l.find? (fun p => p.1 == k)).map Prod.snd

/-- `insert_entry`: replaces any entry under the key and stores the new
value. -/
def insertKey {α : Type} (l : List (ℕ × α)) (k : ℕ) (v : α) : List (ℕ × α) :=
  l.filter (fun p => p.1 != k) ++ [(k, v)]

/-- `append_maybe_delete`: removes the entry under the key when present,
no-op otherwise. -/
def deleteKey {α : Type} (l : List (ℕ × α)) (k : ℕ) : List (ℕ × α) :=
  l.filter (fun p => p.1 != k)

/-- Dispatch of one input to the owning module validator, wrapping module
errors as in `submit_transaction`. -/
def validate_input {M : Type} (env : Env M) : Input → Except TransactionSubmissionError Unit
  | .Coins coins => (env.mint_validate_input coins).mapError .InputCoinError
  | .PegIn peg_in => (env.wallet_validate_input peg_in).mapError .InputPegIn

def validate_output {M : Type} (env : Env M) : Output → Except TransactionSubmissionError Unit
  | .Coins coins => (env.mint_validate_output coins).mapError .OutputCoinError
  | .PegOut peg_out => (env.wallet_validate_output peg_out).mapError .OutputPegOut

/-- `submit_transaction`: stateless funding and signature validation, then
module validation of every input and output, then insertion under
`ProposedTransactionKey` (a pre-existing entry only triggers a warning;
the call still succeeds). -/
def submit_transaction {M : Type} (env : Env M) (db : DB M) (transaction : Transaction) :
    Except TransactionSubmissionError (DB M) := do
  (env.validate_funding transaction).mapError TransactionSubmissionError.TransactionError
  (env.validate_signature transaction).mapError TransactionSubmissionError.TransactionError
  transaction.inputs.forM (validate_input env)
  transaction.outputs.forM (validate_output env)
  pure { db with proposed := insertKey db.proposed transaction.hash transaction }

def apply_input {M : Type} (env : Env M) (m : M) : Input → Except TransactionSubmissionError M
  | .Coins coins => (env.mint_apply_input m coins).mapError .InputCoinError
  | .PegIn peg_in => (env.wallet_apply_input m peg_in).mapError .InputPegIn

def apply_output {M : Type} (env : Env M) (m : M) (o : Output) (op : OutPoint) :
    Except TransactionSubmissionError M :=
  match o with
  | .Coins new_tokens => (env.mint_apply_output m new_tokens op).mapError .OutputCoinError
  | .PegOut peg_out => (env.wallet_apply_output m peg_out op).mapError .OutputPegOut

/-- `process_transaction`: re-validates, then applies every input and
every output (outputs indexed by enumeration order into `OutPoint`s);
the batch commits only if everything succeeded, so an error discards all
module writes of this transaction. -/
def process_transaction {M : Type} (env : Env M) (m : M) (transaction : Transaction) :
    Except TransactionSubmissionError M := do
  (env.validate_funding transaction).mapError TransactionSubmissionError.TransactionError
  (env.validate_signature transaction).mapError TransactionSubmissionError.TransactionError
  let m1 ← transaction.inputs.foldlM (apply_input env) m
  (transaction.outputs.enum).foldlM
    (fun acc p => apply_output env acc p.2 ⟨transaction.hash, p.1⟩) m1

/-- The coin notes spent by a transaction (note nonces of its Coins
inputs). -/
def coinNonces (tx : Transaction) : List Nonce :=
  (tx.inputs.map (fun i => match i with | .Coins ns => ns | .PegIn _ => [])).flatten

/-- The peg-in UTXO references of a transaction. -/
def peginUtxos (tx : Transaction) : List UtxoRef :=
  (tx.inputs.map (fun i => match i with | .Coins _ => [] | .PegIn u => [u])).flatten

/-- Modelled from the spec: the conflict relation of the missing
src/minimint/src/consensus/conflictfilter.rs — two transactions conflict
when they share a peg-in UTXO reference or spend the same coin note
(spec 4.4.3 step 3). -/
def txConflict (a b : Transaction) : Bool :=
  (coinNonces a).any (fun nc => (coinNonces b).contains nc) ||
    (peginUtxos a).any (fun u => (peginUtxos b).contains u)

/-- Modelled from the spec: `filter_conflicts` of the missing
src/minimint/src/consensus/conflictfilter.rs — iterate in received order
and drop any transaction conflicting with a previously kept one;
first-seen wins, deterministic and stable (spec 4.4.3 step 3). -/
def filter_conflicts (txs : List (PeerId × Transaction)) : List (PeerId × Transaction) :=
  txs.foldl (fun kept pt =>
    if kept.any (fun kpt => txConflict kpt.2 pt.2) then kept else kept ++ [pt]) []

/-- The agreed per-epoch outcome delivered by the BFT black box. -/
structure ConsensusOutcome where
  epoch : ℕ
  contributions : List (PeerId × List ConsensusItem)

/-- Flattening of `(peer, items)` contributions into `(peer, item)` pairs,
preserving per-peer order. -/
def flattenContributions (contributions : List (PeerId × List ConsensusItem)) :
    List (PeerId × ConsensusItem) :=
  (contributions.map (fun pc => pc.2.map (fun ci => (pc.1, ci)))).flatten

/-- The transaction partition of the unzipped consensus items. -/
def transactionItems (contributions : List (PeerId × List ConsensusItem)) :
    List (PeerId × Transaction) :=
  (flattenContributions contributions).filterMap
    (fun pc => match pc.2 with | .Transaction tx => some (pc.1, tx) | _ => none)

def walletItems (contributions : List (PeerId × List ConsensusItem)) :
    List (PeerId × ℕ) :=
  (flattenContributions contributions).filterMap
    (fun pc => match pc.2 with | .Wallet w => some (pc.1, w) | _ => none)

def mintItems (contributions : List (PeerId × List ConsensusItem)) :
    List (PeerId × ℕ) :=
  (flattenContributions contributions).filterMap
    (fun pc => match pc.2 with | .Mint mi => some (pc.1, mi) | _ => none)

/-- The per-transaction loop body of `process_consensus_outcome` step 4:
unconditionally delete the proposed-pool entry, then apply the
transaction; on success also insert the accepted entry, on failure keep
only the deletion. -/
def outcomeStep {M : Type} (env : Env M) (epoch : ℕ) (dba : DB M)
    (pt : PeerId × Transaction) : DB M :=
  let dbd : DB M := { dba with proposed := deleteKey dba.proposed pt.2.hash }
  match process_transaction env dbd.modules pt.2 with
  | .ok m =>
    { dbd with
      modules := m
      accepted := insertKey dbd.accepted pt.2.hash ⟨epoch, pt.2⟩ }
  | .error _ => dbd

/-- `process_consensus_outcome`: unzip the contributions, run the module
begin-epoch hooks (wallet then mint), conflict-filter the transaction
items, run the per-transaction step over the survivors, and run the
end-epoch hooks (wallet then mint).  The per-transaction batches commit
together; their sequential composition is their merge since they are
pairwise independent. -/
def process_consensus_outcome {M : Type} (env : Env M) (db : DB M)
    (outcome : ConsensusOutcome) : DB M :=
  let m1 := env.mint_begin_epoch
    (env.wallet_begin_epoch db.modules (walletItems outcome.contributions))
    (mintItems outcome.contributions)
  let db1 : DB M := { db with modules := m1 }
  let db2 := (filter_conflicts (transactionItems outcome.contributions)).foldl
    (outcomeStep env outcome.epoch) db1
  { db2 with modules := env.mint_end_epoch (env.wallet_end_epoch db2.modules) }

/-- The outcome of one output of an accepted transaction, dispatched to
the owning module. -/
def output_status_at {M : Type} (env : Env M) (m : M) (txid : TxHash) (idx : ℕ)
    (o : Output) : Option OutputOutcome :=
  match o with
  | .Coins _ => (env.mint_output_status m ⟨txid, idx⟩).map OutputOutcome.Mint
  | .PegOut _ => (env.wallet_output_status m ⟨txid, idx⟩).map OutputOutcome.Wallet

/-- `transaction_status`: accepted entries take precedence, their outputs
are resolved through the owning module in enumeration order (a missing
status is the fatal `Inconsistency`); otherwise a proposed entry reports
`AwaitingConsensus`; otherwise the transaction is unknown. -/
def transaction_status {M : Type} (env : Env M) (db : DB M) (txid : TxHash) :
    Except Inconsistency (Option TransactionStatus) :=
  let is_proposal := (lookupKey db.proposed txid).isSome
  match lookupKey db.accepted txid with
  | some accepted_tx => do
      let outputs ← accepted_tx.transaction.outputs.enum.mapM
        (fun p => match output_status_at env db.modules txid p.1 p.2 with
          | some oo => Except.ok oo
          | none => Except.error Inconsistency.MissingOutputStatus)
      Except.ok (some (.Accepted accepted_tx.epoch outputs))
  | none => Except.ok (if is_proposal then some .AwaitingConsensus else none)

/-- A test environment over trivial module state: every validator and
applier succeeds; output statuses are supplied by the two arguments. -/
def testEnv (mos wos : OutPoint → Option ℕ) : Env Unit where
  validate_funding := fun _ => .ok ()
  validate_signature := fun _ => .ok ()
  mint_validate_input := fun _ => .ok ()
  wallet_validate_input := fun _ => .ok ()
  mint_validate_output := fun _ => .ok ()
  wallet_validate_output := fun _ => .ok ()
  mint_apply_input := fun m _ => .ok m
  wallet_apply_input := fun m _ => .ok m
  mint_apply_output := fun m _ _ => .ok m
  wallet_apply_output := fun m _ _ => .ok m
  wallet_begin_epoch := fun m _ => m
  mint_begin_epoch := fun m _ => m
  wallet_end_epoch := fun m => m
  mint_end_epoch := fun m => m
  mint_output_status := fun _ p => mos p
  wallet_output_status := fun _ p => wos p

/-- Two transactions spending the same coin note (nonce 7), with distinct
hashes. -/
def txA : Transaction := ⟨[Input.Coins [7]], [], 1⟩

def txB : Transaction := ⟨[Input.Coins [7]], [], 2⟩

/-- A store proposing both conflicting transactions. -/
def dbAB : DB Unit := ⟨[(1, txA), (2, txB)], [], ()⟩

/-- An epoch outcome carrying both conflicting transactions from two
peers. -/
def outcomeAB : ConsensusOutcome :=
  ⟨0, [(0, [ConsensusItem.Transaction txA]), (1, [ConsensusItem.Transaction txB])]⟩

/-- An accepted transaction with one Coins and one PegOut output. -/
def txW : Transaction := ⟨[], [Output.Coins 0, Output.PegOut 9], 5⟩

/-- A store where `txW` is accepted at epoch 3. -/
def dbW : DB Unit := ⟨[], [(5, ⟨3, txW⟩)], ()⟩

/-- A test environment with distinguishable mint and wallet output
statuses. -/
def envW : Env Unit :=
  testEnv (fun p => some (100 + p.out_idx)) (fun p => some (200 + p.out_idx))

/-! Bridge lemmas from the coefficient-list polynomials of the code to
Mathlib polynomials, and correctness of interpolation at zero. -/

theorem toPoly_nil : toPoly ([] : List F) = 0 := rfl

theorem toPoly_cons (a : F) (rest : List F) :
    toPoly (a :: rest) = Polynomial.C a + Polynomial.X * toPoly rest := rfl

theorem toPoly_eval (coeffs : List F) (x : F) :
    (toPoly coeffs).eval x = evalPoly coeffs x := by
  induction coeffs with
  | nil => simp [toPoly_nil, evalPoly]
  | cons a rest ih =>
    simp only [toPoly_cons, Polynomial.eval_add, Polynomial.eval_C,
      Polynomial.eval_mul, Polynomial.eval_X, ih, evalPoly, List.foldr_cons]

theorem toPoly_coeff (coeffs : List F) (k : ℕ) :
    (toPoly coeffs).coeff k = coeffs.getD k 0 := by
  induction coeffs generalizing k with
  | nil => simp [toPoly_nil]
  | cons a rest ih =>
    cases k with
    | zero =>
      simp [toPoly_cons, Polynomial.coeff_add, Polynomial.coeff_C_zero,
        Polynomial.coeff_X_mul_zero]
    | succ k =>
      simp [toPoly_cons, Polynomial.coeff_add, Polynomial.coeff_C,
        Polynomial.coeff_X_mul, ih]

theorem toPoly_degree_lt (coeffs : List F) :
    (toPoly coeffs).degree < (coeffs.length : ℕ) := by
  rw [Polynomial.degree_lt_iff_coeff_zero]
  intro m hm
  rw [toPoly_coeff]
  exact List.getD_eq_default _ _ (by exact_mod_cast hm)

theorem nodup_getD_injOn (xs : List F) (hnd : xs.Nodup) :
    Set.InjOn (fun i => xs.getD i 0) (Finset.range xs.length) := by
  intro i hi j hj hij
  simp only [Finset.coe_range, Set.mem_Iio] at hi hj
  have hij' : xs.getD i 0 = xs.getD j 0 := hij
  rw [List.getD_eq_getElem xs 0 hi, List.getD_eq_getElem xs 0 hj] at hij'
  exact (List.Nodup.getElem_inj_iff hnd).mp hij'

/-- Correctness of interpolation at zero: over any list of distinct
nonzero nodes covering at least the number of coefficients, interpolating
the evaluations of a polynomial recovers its value at zero. -/
theorem interpolate_zero_map_eval (p : List F) (xs : List F)
    (hnd : xs.Nodup) (h0 : (0 : F) ∉ xs) (hlen : p.length ≤ xs.length) :
    interpolate_zero (xs.map (fun x => (x, evalPoly p x))) = some (evalPoly p 0) := by
  have hfst : (xs.map (fun x => (x, evalPoly p x))).map Prod.fst = xs := by
    rw [List.map_map]
    exact List.map_congr_left (fun x _ => rfl) |>.trans (List.map_id xs)
  have hlenpts : (xs.map (fun x => (x, evalPoly p x))).length = xs.length :=
    List.length_map _ _
  rw [interpolate_zero, if_pos (by rw [hfst]; exact ⟨hnd, h0⟩)]
  congr 1
  set n := xs.length with hn
  set v : ℕ → F := fun i => xs.getD i 0 with hv
  have hinj : Set.InjOn v (Finset.range n) := nodup_getD_injOn xs hnd
  have hgetD : ∀ i, i < n →
      (xs.map (fun x => (x, evalPoly p x))).getD i (0, 0) = (v i, evalPoly p (v i)) := by
    intro i hi
    rw [List.getD_eq_getElem _ _ (by rw [hlenpts]; exact hi), List.getElem_map]
    rw [hv]
    simp only []
    rw [List.getD_eq_getElem xs 0 hi]
  have hdeg : (toPoly p).degree < (Finset.range n).card := by
    refine lt_of_lt_of_le (toPoly_degree_lt p) ?_
    rw [Finset.card_range]
    exact_mod_cast hlen
  have hrep := Lagrange.eq_interpolate (v := v) (s := Finset.range n) hinj hdeg
  have heval := congrArg (Polynomial.eval 0) hrep
  rw [Lagrange.interpolate_apply, Polynomial.eval_finset_sum] at heval
  rw [toPoly_eval] at heval
  rw [heval]
  rw [hlenpts]
  refine Finset.sum_congr rfl ?_
  intro i hi
  have hiN : i < n := Finset.mem_range.mp hi
  simp only [Polynomial.eval_mul, Polynomial.eval_C]
  rw [hgetD i hiN]
  congr 1
  · rw [toPoly_eval]
  · -- basis evaluation at zero equals the lagrangeZero coefficient
    rw [Lagrange.basis, Polynomial.eval_prod, lagrangeZero, hlenpts]
    refine Finset.prod_congr rfl ?_
    intro j hj
    have hjN : j < n := Finset.mem_range.mp (Finset.mem_of_mem_erase hj)
    rw [hgetD j hjN, hgetD i hiN]
    rw [Lagrange.basisDivisor, Polynomial.eval_mul, Polynomial.eval_C,
      Polynomial.eval_sub, Polynomial.eval_X, Polynomial.eval_C]
    simp only []
    rw [zero_sub]
    rw [show v j - v i = -(v i - v j) by ring, inv_neg]
    ring

theorem evalPoly_map_mul (c : F) (coeffs : List F) (x : F) :
    evalPoly (coeffs.map (fun a => c * a)) x = c * evalPoly coeffs x := by
  induction coeffs with
  | nil => simp [evalPoly]
  | cons a rest ih =>
    simp only [List.map_cons, evalPoly, List.foldr_cons] at *
    rw [ih]
    ring

/-- Shares drawn from one polynomial of at most `t` coefficients, scaled by
a common factor `c`, combine to `c` times the polynomial at zero whenever
the first `t` x-coordinates are distinct and nonzero. -/
theorem combine_shares_eq (coeffs : List F) (c : F) (t : ℕ) (S : List ℕ)
    (hlen : coeffs.length ≤ t) (hSlen : t ≤ S.length)
    (hnd : ((S.take t).map (fun i => ((i + 1 : ℕ) : F))).Nodup)
    (h0 : (0 : F) ∉ (S.take t).map (fun i => ((i + 1 : ℕ) : F))) :
    combine_valid_shares (S.map (fun i => (i, c * evalPoly coeffs ((i + 1 : ℕ) : F)))) t
      = some (c * evalPoly coeffs 0) := by
  rw [combine_valid_shares, ← List.map_take]
  have hpts : ((S.take t).map (fun i => (i, c * evalPoly coeffs ((i + 1 : ℕ) : F)))).map
        (fun p => (((p.1 + 1 : ℕ) : F), p.2))
      = ((S.take t).map (fun i => ((i + 1 : ℕ) : F))).map
          (fun x => (x, evalPoly (coeffs.map (fun a => c * a)) x)) := by
    rw [List.map_map, List.map_map]
    refine List.map_congr_left ?_
    intro i _
    simp only [Function.comp_apply]
    rw [evalPoly_map_mul]
  rw [hpts, interpolate_zero_map_eval _ _ hnd h0 ?_, evalPoly_map_mul]
  rw [List.length_map, List.length_map, List.length_take, min_eq_left hSlen]
  exact hlen

theorem dealer_keygen_sec_getD (coeffs : List F) (n i : ℕ) (hi : i < n) :
    (dealer_keygen coeffs n).2.2.getD i 0 = evalPoly coeffs ((i + 1 : ℕ) : F) := by
  rw [dealer_keygen]
  simp only []
  rw [List.getD_eq_getElem _ _ (by simpa using hi), List.getElem_map, List.getElem_range]

/-- Claim C1: for every message, every threshold and key count with
1 <= t <= n, and every list S of share indices with at least t entries
(all below n, the first t mapping to distinct nonzero x-coordinates) and a
nonzero blinding key: blinding, signing the blinded message with the
dealer secret shares at the indices in S, combining with
`combine_valid_shares(., t)` and unblinding produces a signature that
`verify` accepts under the aggregate public key of `dealer_keygen(t, n)`. -/
theorem tbs_roundtrip_verifies (coeffs : List F) (m b : F) (t n : ℕ) (S : List ℕ)
    (hcoeffs : coeffs.length = t) (ht : 1 ≤ t) (htn : t ≤ n)
    (hS : ∀ i ∈ S, i < n) (hSlen : t ≤ S.length) (hb : b ≠ 0)
    (hnd : ((S.take t).map (fun i => ((i + 1 : ℕ) : F))).Nodup)
    (h0 : (0 : F) ∉ (S.take t).map (fun i => ((i + 1 : ℕ) : F))) :
    ∃ bsig sig : F,
      combine_valid_shares
        (S.map (fun i => (i, sign_blinded_msg (blind_message m b).2
          ((dealer_keygen coeffs n).2.2.getD i 0)))) t = some bsig ∧
      unblind_signature (blind_message m b).1 bsig = some sig ∧
      verify m sig (dealer_keygen coeffs n).1 = true := by
  have hmap : S.map (fun i => (i, sign_blinded_msg (blind_message m b).2
        ((dealer_keygen coeffs n).2.2.getD i 0)))
      = S.map (fun i => (i, m * b * evalPoly coeffs ((i + 1 : ℕ) : F))) := by
    refine List.map_congr_left ?_
    intro i hiS
    rw [dealer_keygen_sec_getD coeffs n i (hS i hiS)]
    rfl
  refine ⟨m * b * evalPoly coeffs 0, m * evalPoly coeffs 0, ?_, ?_, ?_⟩
  · rw [hmap]
    exact combine_shares_eq coeffs (m * b) t S (le_of_eq hcoeffs) hSlen hnd h0
  · show unblind_signature b (m * b * evalPoly coeffs 0) = some (m * evalPoly coeffs 0)
    rw [unblind_signature, if_neg hb]
    congr 1
    field_simp
    ring
  · show verify m (m * evalPoly coeffs 0) (1 * evalPoly coeffs 0) = true
    rw [verify, decide_eq_true_eq]
    ring

/-- Witness for C1 at a concrete instance over the five-element field. -/
theorem tbs_roundtrip_verifies_witness :
    ∃ bsig sig : K5,
      combine_valid_shares
        ([2, 0, 1].map (fun i => (i, sign_blinded_msg (blind_message (4 : K5) 2).2
          ((dealer_keygen [2, 3] 3).2.2.getD i 0)))) 2 = some bsig ∧
      unblind_signature (blind_message (4 : K5) 2).1 bsig = some sig ∧
      verify 4 sig (dealer_keygen [2, 3] 3).1 = true :=
  tbs_roundtrip_verifies [2, 3] 4 2 2 3 [2, 0, 1] (by decide) (by decide)
    (by decide) (by decide) (by decide) (by decide) (by decide) (by decide)

/-- Claim C2: for 1 <= t <= n (with the first t x-coordinates distinct and
nonzero in the scalar field), `aggregate(t)` on the public key share
vector of `dealer_keygen(t, n)` returns exactly the aggregate public
key. -/
theorem aggregate_recovers_agg_pk (coeffs : List F) (t n : ℕ)
    (hcoeffs : coeffs.length = t) (ht : 1 ≤ t) (htn : t ≤ n)
    (hnd : ((List.range t).map (fun i => ((i + 1 : ℕ) : F))).Nodup)
    (h0 : (0 : F) ∉ (List.range t).map (fun i => ((i + 1 : ℕ) : F))) :
    aggregate (dealer_keygen coeffs n).2.1 t = some (dealer_keygen coeffs n).1 := by
  have hpub : (dealer_keygen coeffs n).2.1
      = (List.range n).map (fun i => 1 * evalPoly coeffs ((i + 1 : ℕ) : F)) := by
    rw [dealer_keygen]
    simp only [List.map_map]
    rfl
  have hA : (((dealer_keygen coeffs n).2.1).enum.map
        (fun p => (((p.1 + 1 : ℕ) : F), p.2))).take t
      = ((List.range t).map (fun i => ((i + 1 : ℕ) : F))).map
          (fun x => (x, evalPoly (coeffs.map (fun a => 1 * a)) x)) := by
    apply List.ext_getElem
    · simp [hpub, min_eq_left htn]
    · intro i h1 h2
      simp only [hpub, List.getElem_take, List.getElem_map, List.getElem_enum,
        List.getElem_range]
      rw [evalPoly_map_mul]
  rw [aggregate, hA, interpolate_zero_map_eval _ _ hnd h0 (by simp [hcoeffs]),
    evalPoly_map_mul]
  rw [dealer_keygen]

/-- Witness for C2 at a concrete instance over the five-element field. -/
theorem aggregate_recovers_agg_pk_witness :
    aggregate (dealer_keygen ([2, 3] : List K5) 3).2.1 2
      = some (dealer_keygen ([2, 3] : List K5) 3).1 :=
  aggregate_recovers_agg_pk [2, 3] 2 3 (by decide) (by decide) (by decide)
    (by decide) (by decide)

/-- Claim C5: `combine_valid_shares` does not detect under-supply.  Fed
fewer than `threshold` pairs whose x-coordinates are distinct and nonzero,
it still returns a blinded signature point (no error and no panic); and at
a concrete instance, combining one share at threshold 2 yields a point
whose unblinded signature fails `verify` under the aggregate key. -/
theorem combine_undersupply_no_detect (shares : List (ℕ × F)) (t : ℕ)
    (hlt : shares.length < t)
    (hnd : (shares.map (fun p => ((p.1 + 1 : ℕ) : F))).Nodup)
    (h0 : (0 : F) ∉ shares.map (fun p => ((p.1 + 1 : ℕ) : F))) :
    (∃ s : F, combine_valid_shares shares t = some s) ∧
      (∃ s sig : K5,
        combine_valid_shares
          [((0 : ℕ), sign_blinded_msg (blind_message (1 : K5) 1).2
            ((dealer_keygen [1, 1] 3).2.2.getD 0 0))] 2 = some s ∧
        unblind_signature (blind_message (1 : K5) 1).1 s = some sig ∧
        verify 1 sig (dealer_keygen ([1, 1] : List K5) 3).1 = false) := by
  constructor
  · have hguard : ((shares.map (fun p : ℕ × F => (((p.1 + 1 : ℕ) : F), p.2))).map
          Prod.fst).Nodup ∧
        (0 : F) ∉ (shares.map (fun p : ℕ × F => (((p.1 + 1 : ℕ) : F), p.2))).map Prod.fst := by
      rw [List.map_map]
      exact ⟨hnd, h0⟩
    rw [combine_valid_shares, List.take_of_length_le (le_of_lt hlt), interpolate_zero,
      if_pos hguard]
    exact ⟨_, rfl⟩
  · exact ⟨2, 2, by decide, by decide, by decide⟩

/-- Witness for C5 at a concrete under-supplied instance. -/
theorem combine_undersupply_no_detect_witness :
    (∃ s : K5, combine_valid_shares [((0 : ℕ), (2 : K5))] 2 = some s) ∧
      (∃ s sig : K5,
        combine_valid_shares
          [((0 : ℕ), sign_blinded_msg (blind_message (1 : K5) 1).2
            ((dealer_keygen [1, 1] 3).2.2.getD 0 0))] 2 = some s ∧
        unblind_signature (blind_message (1 : K5) 1).1 s = some sig ∧
        verify 1 sig (dealer_keygen ([1, 1] : List K5) 3).1 = false) :=
  combine_undersupply_no_detect [((0 : ℕ), (2 : K5))] 2 (by decide) (by decide)
    (by decide)

/-- Claim C7: `combine_valid_shares` consumes exactly the first
`threshold` pairs of its input, and on shares evaluated from one secret
polynomial any two index lists of length at least `threshold` (first
`threshold` x-coordinates distinct and nonzero) give equal
`BlindedSignature` points: permutations and supersets do not matter. -/
theorem combine_subset_order_independent (coeffs : List F) (bmsg : F) (t : ℕ)
    (S1 S2 : List ℕ) (hlen : coeffs.length ≤ t)
    (h1 : t ≤ S1.length) (h2 : t ≤ S2.length)
    (hnd1 : ((S1.take t).map (fun i => ((i + 1 : ℕ) : F))).Nodup)
    (h01 : (0 : F) ∉ (S1.take t).map (fun i => ((i + 1 : ℕ) : F)))
    (hnd2 : ((S2.take t).map (fun i => ((i + 1 : ℕ) : F))).Nodup)
    (h02 : (0 : F) ∉ (S2.take t).map (fun i => ((i + 1 : ℕ) : F))) :
    (∀ (shares : List (ℕ × F)) (th : ℕ),
        combine_valid_shares shares th = combine_valid_shares (shares.take th) th) ∧
      combine_valid_shares
          (S1.map (fun i => (i, sign_blinded_msg bmsg (evalPoly coeffs ((i + 1 : ℕ) : F))))) t
        = combine_valid_shares
          (S2.map (fun i => (i, sign_blinded_msg bmsg (evalPoly coeffs ((i + 1 : ℕ) : F))))) t := by
  constructor
  · intro shares th
    rw [combine_valid_shares, combine_valid_shares, List.take_take, min_self]
  · have e1 := combine_shares_eq coeffs bmsg t S1 hlen h1 hnd1 h01
    have e2 := combine_shares_eq coeffs bmsg t S2 hlen h2 hnd2 h02
    simp only [sign_blinded_msg]
    simp only [combine_shares_eq, sign_blinded_msg] at e1 e2
    rw [e1, e2]

/-- Witness for C7: a permuted superset and a disjoint-order subset of the
same shares combine to the same point. -/
theorem combine_subset_order_independent_witness :
    (∀ (shares : List (ℕ × K5)) (th : ℕ),
        combine_valid_shares shares th = combine_valid_shares (shares.take th) th) ∧
      combine_valid_shares
          ([0, 1, 2].map (fun i => (i, sign_blinded_msg (3 : K5)
            (evalPoly [2, 3] ((i + 1 : ℕ) : K5))))) 2
        = combine_valid_shares
          ([2, 1, 0].map (fun i => (i, sign_blinded_msg (3 : K5)
            (evalPoly [2, 3] ((i + 1 : ℕ) : K5))))) 2 :=
  combine_subset_order_independent [2, 3] 3 2 [0, 1, 2] [2, 1, 0] (by decide)
    (by decide) (by decide) (by decide) (by decide) (by decide) (by decide)

/-- Claim C4 (refuted by the code): `blind_message` and
`BlindingKey::random` perform a single rng draw with no retry on zero, so
when the rng yields the zero scalar the returned blinding key is zero and
not invertible; `unblind_signature` then panics on it. -/
theorem blinding_key_zero_draw :
    (blind_message (1 : K5) 0).1 = 0 ∧
      BlindingKey.random (0 : K5) = 0 ∧
      unblind_signature (blind_message (1 : K5) 0).1 (2 : K5) = none := by
  decide

/-- Claim C9: `dealer_keygen` computes `threshold - 1` on an unsigned
integer, so it fails (panics) at threshold 0 and returns keys for every
threshold at least 1. -/
theorem dealer_keygen_threshold_zero_panics (rand : ℕ → F) (keys : ℕ) :
    dealer_keygen_rand rand 0 keys = none ∧
      ∀ t, 1 ≤ t → (dealer_keygen_rand rand t keys).isSome = true := by
  constructor
  · rfl
  · intro t ht
    rw [dealer_keygen_rand, checkedSub, if_neg (by omega)]
    rfl

/-- Witness for C9 on concrete inputs. -/
theorem dealer_keygen_threshold_zero_panics_witness :
    dealer_keygen_rand (fun _ => (0 : K5)) 0 3 = none ∧
      (dealer_keygen_rand (fun _ => (0 : K5)) 2 3).isSome = true :=
  ⟨(dealer_keygen_threshold_zero_panics (fun _ => (0 : K5)) 3).1,
    (dealer_keygen_threshold_zero_panics (fun _ => (0 : K5)) 3).2 2 (by decide)⟩

/-- Claim C10: `unblind_signature` inverts the blinding key with
`invert().unwrap()`: it panics exactly on the zero blinding key and
returns the blinded signature times the inverse for every nonzero key. -/
theorem unblind_signature_partial_at_zero (bsig : F) :
    unblind_signature (0 : F) bsig = none ∧
      ∀ bk : F, bk ≠ 0 → unblind_signature bk bsig = some (bsig * bk⁻¹) := by
  constructor
  · rw [unblind_signature, if_pos rfl]
  · intro bk hbk
    rw [unblind_signature, if_neg hbk]

/-- Witness for C10 on concrete inputs. -/
theorem unblind_signature_partial_at_zero_witness :
    unblind_signature (0 : K5) 2 = none ∧
      unblind_signature (3 : K5) 2 = some (2 * (3 : K5)⁻¹) :=
  ⟨(unblind_signature_partial_at_zero (2 : K5)).1,
    (unblind_signature_partial_at_zero (2 : K5)).2 3 (by decide)⟩

/-! KV-view lemmas. -/

theorem lookupKey_cons {α : Type} (a : ℕ × α) (l : List (ℕ × α)) (k : ℕ) :
    lookupKey (a :: l) k = if a.1 = k then some a.2 else lookupKey l k := by
  by_cases h : a.1 = k
  · rw [lookupKey, List.find?_cons_of_pos _ (by simpa using h), if_pos h]
    rfl
  · rw [lookupKey, List.find?_cons_of_neg _ (by simpa using h), if_neg h]
    rfl

theorem deleteKey_cons {α : Type} (a : ℕ × α) (l : List (ℕ × α)) (k : ℕ) :
    deleteKey (a :: l) k = if a.1 = k then deleteKey l k else a :: deleteKey l k := by
  by_cases h : a.1 = k
  · rw [deleteKey, List.filter_cons, if_neg (by simp [h]), if_pos h]
    rfl
  · rw [deleteKey, List.filter_cons, if_pos (by simpa using h), if_neg h]
    rfl

theorem lookupKey_deleteKey_self {α : Type} (l : List (ℕ × α)) (k : ℕ) :
    lookupKey (deleteKey l k) k = none := by
  induction l with
  | nil => rfl
  | cons a rest ih =>
    rw [deleteKey_cons]
    by_cases h : a.1 = k
    · rw [if_pos h]
      exact ih
    · rw [if_neg h, lookupKey_cons, if_neg h]
      exact ih

theorem lookupKey_deleteKey_ne {α : Type} (l : List (ℕ × α)) (k k' : ℕ) (h : k' ≠ k) :
    lookupKey (deleteKey l k) k' = lookupKey l k' := by
  induction l with
  | nil => rfl
  | cons a rest ih =>
    rw [deleteKey_cons, lookupKey_cons]
    by_cases ha : a.1 = k
    · rw [if_pos ha, if_neg (by rw [ha]; exact fun hkk => h hkk.symm)]
      exact ih
    · rw [if_neg ha, lookupKey_cons]
      by_cases ha' : a.1 = k'
      · rw [if_pos ha', if_pos ha']
      · rw [if_neg ha', if_neg ha']
        exact ih

theorem lookupKey_deleteKey_none {α : Type} (l : List (ℕ × α)) (k k' : ℕ)
    (h : lookupKey l k' = none) : lookupKey (deleteKey l k) k' = none := by
  by_cases hk : k' = k
  · rw [hk]
    exact lookupKey_deleteKey_self l k
  · rw [lookupKey_deleteKey_ne l k k' hk]
    exact h

theorem insertKey_eq_delete_append {α : Type} (l : List (ℕ × α)) (k : ℕ) (v : α) :
    insertKey l k v = deleteKey l k ++ [(k, v)] := rfl

theorem lookupKey_append {α : Type} (l1 l2 : List (ℕ × α)) (k : ℕ) :
    lookupKey (l1 ++ l2) k
      = match lookupKey l1 k with | some v => some v | none => lookupKey l2 k := by
  induction l1 with
  | nil => rfl
  | cons a rest ih =>
    rw [List.cons_append, lookupKey_cons, lookupKey_cons]
    by_cases h : a.1 = k
    · rw [if_pos h, if_pos h]
    · rw [if_neg h, if_neg h]
      exact ih

theorem lookupKey_insertKey_self {α : Type} (l : List (ℕ × α)) (k : ℕ) (v : α) :
    lookupKey (insertKey l k v) k = some v := by
  rw [insertKey_eq_delete_append, lookupKey_append, lookupKey_deleteKey_self]
  rw [lookupKey_cons, if_pos rfl]

theorem lookupKey_insertKey_ne {α : Type} (l : List (ℕ × α)) (k k' : ℕ) (v : α)
    (h : k' ≠ k) : lookupKey (insertKey l k v) k' = lookupKey l k' := by
  rw [insertKey_eq_delete_append, lookupKey_append, lookupKey_deleteKey_ne l k k' h]
  cases hl : lookupKey l k' with
  | some w => rfl
  | none =>
    rw [lookupKey_cons, if_neg (fun hkk => h hkk.symm)]
    rfl

/-! Monadic helper lemmas over `Except`. -/

theorem except_pure {ε α : Type} (a : α) : (pure a : Except ε α) = Except.ok a := rfl

theorem except_bind_error {ε α β : Type} (e : ε) (f : α → Except ε β) :
    (Except.error e >>= f : Except ε β) = Except.error e := rfl

theorem except_bind_ok {ε α β : Type} (a : α) (f : α → Except ε β) :
    (Except.ok a >>= f : Except ε β) = f a := rfl

theorem except_map_ok {ε α β : Type} (g : α → β) (a : α) :
    (g <$> (Except.ok a : Except ε α)) = Except.ok (g a) := rfl

theorem except_map_error {ε α β : Type} (g : α → β) (e : ε) :
    (g <$> (Except.error e : Except ε α)) = Except.error e := rfl

theorem except_mapError_ok {ε ε2 α : Type} (g : ε → ε2) (a : α) :
    (Except.ok a : Except ε α).mapError g = Except.ok a := rfl

theorem except_mapError_error {ε ε2 α : Type} (g : ε → ε2) (e : ε) :
    (Except.error e : Except ε α).mapError g = Except.error (g e) := rfl

theorem except_isOk_ok {ε α : Type} (a : α) : (Except.ok a : Except ε α).isOk = true := rfl

theorem except_isOk_error {ε α : Type} (e : ε) :
    (Except.error e : Except ε α).isOk = false := rfl

theorem forM_ok_of_all {α ε : Type} (f : α → Except ε Unit) (l : List α)
    (h : ∀ x ∈ l, (f x).isOk = true) : List.forM l f = Except.ok () := by
  induction l with
  | nil => rfl
  | cons a rest ih =>
    have ha := h a (List.mem_cons_self a rest)
    cases hfa : f a with
    | ok u =>
      cases u
      show (f a >>= fun _ => List.forM rest f) = Except.ok ()
      rw [hfa]
      exact ih (fun x hx => h x (List.mem_cons_of_mem a hx))
    | error e =>
      rw [hfa] at ha
      exact absurd ha (by simp [Except.isOk, Except.toBool])

theorem forM_error_of_not_all {α ε : Type} (f : α → Except ε Unit) (l : List α)
    (h : ¬ ∀ x ∈ l, (f x).isOk = true) : ∃ e, List.forM l f = Except.error e := by
  induction l with
  | nil => exact absurd (by intro x hx; cases hx) h
  | cons a rest ih =>
    cases hfa : f a with
    | error e =>
      refine ⟨e, ?_⟩
      show (f a >>= fun _ => List.forM rest f) = Except.error e
      rw [hfa]
      rfl
    | ok u =>
      cases u
      have hrest : ¬ ∀ x ∈ rest, (f x).isOk = true := by
        intro hall
        refine h ?_
        intro x hx
        rcases List.mem_cons.mp hx with h1 | h2
        · rw [h1, hfa]; rfl
        · exact hall x h2
      obtain ⟨e, he⟩ := ih hrest
      refine ⟨e, ?_⟩
      show (f a >>= fun _ => List.forM rest f) = Except.error e
      rw [hfa]
      exact he

/-- Claim C6: `submit_transaction` is atomic in validation failures.  When
every stateless and module validator passes it inserts the proposed entry
and succeeds — also when an entry under that hash already existed — and
it writes nothing else; when the funding or signature validator fails it
returns that error wrapped as `TransactionError`; when any validator
fails it returns an error (and, the success case being the only one that
returns a store, writes nothing). -/
theorem submit_transaction_atomic {M : Type} (env : Env M) (db : DB M) (tx : Transaction) :
    ((env.validate_funding tx).isOk = true → (env.validate_signature tx).isOk = true →
      (∀ i ∈ tx.inputs, (validate_input env i).isOk = true) →
      (∀ o ∈ tx.outputs, (validate_output env o).isOk = true) →
      submit_transaction env db tx
        = Except.ok { db with proposed := insertKey db.proposed tx.hash tx }) ∧
    (∀ db', submit_transaction env db tx = Except.ok db' →
      db'.proposed = insertKey db.proposed tx.hash tx ∧
      db'.accepted = db.accepted ∧ db'.modules = db.modules) ∧
    (∀ e, env.validate_funding tx = Except.error e →
      submit_transaction env db tx
        = Except.error (TransactionSubmissionError.TransactionError e)) ∧
    ((env.validate_funding tx).isOk = true →
      ∀ e, env.validate_signature tx = Except.error e →
      submit_transaction env db tx
        = Except.error (TransactionSubmissionError.TransactionError e)) ∧
    (¬ ((env.validate_funding tx).isOk = true ∧ (env.validate_signature tx).isOk = true ∧
        (∀ i ∈ tx.inputs, (validate_input env i).isOk = true) ∧
        (∀ o ∈ tx.outputs, (validate_output env o).isOk = true)) →
      ∃ e, submit_transaction env db tx = Except.error e) := by
  cases hf : env.validate_funding tx with
  | error e =>
    have hrun : submit_transaction env db tx
        = Except.error (TransactionSubmissionError.TransactionError e) := by
      rw [submit_transaction]
      simp only [hf, except_mapError_error, except_bind_error]
    refine ⟨?_, ?_, ?_, ?_, ?_⟩
    · intro hok
      exact absurd hok (by rw [except_isOk_error]; exact Bool.false_ne_true)
    · intro db' hdb'
      rw [hrun] at hdb'
      cases hdb'
    · intro e' he'
      injection he' with he''
      rw [hrun, he'']
    · intro hok
      exact absurd hok (by rw [except_isOk_error]; exact Bool.false_ne_true)
    · intro _
      exact ⟨TransactionSubmissionError.TransactionError e, hrun⟩
  | ok uf =>
    cases uf
    cases hs : env.validate_signature tx with
    | error e =>
      have hrun : submit_transaction env db tx
          = Except.error (TransactionSubmissionError.TransactionError e) := by
        rw [submit_transaction]
        simp only [hf, hs, except_mapError_ok, except_mapError_error, except_bind_ok,
          except_bind_error]
      refine ⟨?_, ?_, ?_, ?_, ?_⟩
      · intro _ hok
        exact absurd hok (by rw [except_isOk_error]; exact Bool.false_ne_true)
      · intro db' hdb'
        rw [hrun] at hdb'
        cases hdb'
      · intro e' he'
        cases he'
      · intro _ e' he'
        injection he' with he''
        rw [hrun, he'']
      · intro _
        exact ⟨TransactionSubmissionError.TransactionError e, hrun⟩
    | ok us =>
      cases us
      by_cases hin : ∀ i ∈ tx.inputs, (validate_input env i).isOk = true
      · have hforin := forM_ok_of_all (validate_input env) tx.inputs hin
        by_cases hout : ∀ o ∈ tx.outputs, (validate_output env o).isOk = true
        · have hforout := forM_ok_of_all (validate_output env) tx.outputs hout
          have hrun : submit_transaction env db tx
              = Except.ok { db with proposed := insertKey db.proposed tx.hash tx } := by
            rw [submit_transaction]
            simp only [hf, hs, hforin, hforout, except_mapError_ok, except_bind_ok,
              except_map_ok, except_pure]
          refine ⟨fun _ _ _ _ => hrun, ?_, ?_, ?_, ?_⟩
          · intro db' hdb'
            rw [hrun] at hdb'
            injection hdb' with hdb''
            rw [← hdb'']
            exact ⟨rfl, rfl, rfl⟩
          · intro e' he'
            cases he'
          · intro _ e' he'
            cases he'
          · intro hno
            exact absurd ⟨rfl, rfl, hin, hout⟩ hno
        · obtain ⟨e, he⟩ := forM_error_of_not_all (validate_output env) tx.outputs hout
          have hrun : submit_transaction env db tx = Except.error e := by
            rw [submit_transaction]
            simp only [hf, hs, hforin, he, except_mapError_ok, except_bind_ok,
              except_map_error, except_bind_error, except_pure]
          refine ⟨?_, ?_, ?_, ?_, ?_⟩
          · intro _ _ _ hall
            exact absurd hall hout
          · intro db' hdb'
            rw [hrun] at hdb'
            cases hdb'
          · intro e' he'
            cases he'
          · intro _ e' he'
            cases he'
          · intro _
            exact ⟨e, hrun⟩
      · obtain ⟨e, he⟩ := forM_error_of_not_all (validate_input env) tx.inputs hin
        have hrun : submit_transaction env db tx = Except.error e := by
          rw [submit_transaction]
          simp only [hf, hs, he, except_mapError_ok, except_bind_ok, except_bind_error,
            except_pure]
        refine ⟨?_, ?_, ?_, ?_, ?_⟩
        · intro _ _ hall _
          exact absurd hall hin
        · intro db' hdb'
          rw [hrun] at hdb'
          cases hdb'
        · intro e' he'
          cases he'
        · intro _ e' he'
          cases he'
        · intro _
          exact ⟨e, hrun⟩

/-- Witness for C6: a concrete valid transaction is inserted even though
its hash is already in the proposed pool. -/
theorem submit_transaction_atomic_witness :
    submit_transaction (testEnv (fun _ => none) (fun _ => none)) dbAB txA
      = Except.ok { dbAB with proposed := insertKey dbAB.proposed txA.hash txA } :=
  (submit_transaction_atomic (testEnv (fun _ => none) (fun _ => none)) dbAB txA).1
    (by decide) (by decide) (by decide) (by decide)

/-! Outcome-processing lemmas for claim C3. -/

theorem outcomeStep_proposed {M : Type} (env : Env M) (epoch : ℕ) (dba : DB M)
    (pt : PeerId × Transaction) :
    (outcomeStep env epoch dba pt).proposed = deleteKey dba.proposed pt.2.hash := by
  rw [outcomeStep]
  cases process_transaction env dba.modules pt.2 <;> rfl

theorem foldl_outcomeStep_proposed {M : Type} (env : Env M) (epoch : ℕ)
    (l : List (PeerId × Transaction)) (db0 : DB M) :
    (l.foldl (outcomeStep env epoch) db0).proposed
      = l.foldl (fun P pt => deleteKey P pt.2.hash) db0.proposed := by
  induction l generalizing db0 with
  | nil => rfl
  | cons a rest ih =>
    rw [List.foldl_cons, List.foldl_cons, ih, outcomeStep_proposed]

theorem lookupKey_foldl_deleteKey_preserve (l : List (PeerId × Transaction))
    (P : List (ℕ × Transaction)) (k : ℕ) (h : lookupKey P k = none) :
    lookupKey (l.foldl (fun P pt => deleteKey P pt.2.hash) P) k = none := by
  induction l generalizing P with
  | nil => exact h
  | cons a rest ih =>
    rw [List.foldl_cons]
    exact ih _ (lookupKey_deleteKey_none _ _ _ h)

theorem lookupKey_foldl_deleteKey_none (l : List (PeerId × Transaction))
    (P : List (ℕ × Transaction)) (k : ℕ) (hmem : ∃ pt ∈ l, pt.2.hash = k) :
    lookupKey (l.foldl (fun P pt => deleteKey P pt.2.hash) P) k = none := by
  induction l generalizing P with
  | nil =>
    rcases hmem with ⟨pt, hpt, _⟩
    cases hpt
  | cons a rest ih =>
    rw [List.foldl_cons]
    rcases hmem with ⟨pt, hpt, hk⟩
    rcases List.mem_cons.mp hpt with h1 | h2
    · refine lookupKey_foldl_deleteKey_preserve rest _ k ?_
      rw [← hk, h1]
      exact lookupKey_deleteKey_self _ _
    · exact ih _ ⟨pt, h2, hk⟩

theorem process_outcome_proposed_eq {M : Type} (env : Env M) (db : DB M)
    (outcome : ConsensusOutcome) :
    (process_consensus_outcome env db outcome).proposed
      = (filter_conflicts (transactionItems outcome.contributions)).foldl
          (fun P pt => deleteKey P pt.2.hash) db.proposed := by
  rw [process_consensus_outcome]
  exact foldl_outcomeStep_proposed env outcome.epoch _ _

/-- Claim C3 as stated is refuted by the code: in `outcomeAB` the hash of
`txB` appears among the outcome transaction items, yet after
`process_consensus_outcome` its ProposedTransactionKey entry is still
present — only conflict-filter survivors have their entry deleted.  Of the
two conflicting transactions exactly one (`txA`) is accepted, and `txA`
is removed from the proposed pool. -/
theorem process_outcome_keeps_rejected_proposed :
    (1, txB) ∈ transactionItems outcomeAB.contributions ∧
    lookupKey (process_consensus_outcome (testEnv (fun _ => none) (fun _ => none))
      dbAB outcomeAB).proposed txB.hash = some txB ∧
    lookupKey (process_consensus_outcome (testEnv (fun _ => none) (fun _ => none))
      dbAB outcomeAB).accepted txB.hash = none ∧
    lookupKey (process_consensus_outcome (testEnv (fun _ => none) (fun _ => none))
      dbAB outcomeAB).proposed txA.hash = none ∧
    lookupKey (process_consensus_outcome (testEnv (fun _ => none) (fun _ => none))
      dbAB outcomeAB).accepted txA.hash = some ⟨0, txA⟩ := by
  decide

/-- Claim C3, amended: after `process_consensus_outcome`, every
transaction KEPT by the conflict filter has its ProposedTransactionKey
entry removed, whether its application succeeds or fails; a transaction
rejected by the filter keeps any proposed entry.  Of two transactions in
one epoch spending the same coin note, the first is accepted (when it
applies cleanly) and the other is in neither the accepted set nor removed
from the proposed pool. -/
theorem process_outcome_proposed_removal {M : Type} (env : Env M) (db : DB M)
    (outcome : ConsensusOutcome) :
    (∀ pt ∈ filter_conflicts (transactionItems outcome.contributions),
      lookupKey (process_consensus_outcome env db outcome).proposed pt.2.hash = none) ∧
    (∀ p1 p2 t1 t2,
      transactionItems outcome.contributions = [(p1, t1), (p2, t2)] →
      txConflict t1 t2 = true →
      (∀ m : M, ∃ m2, process_transaction env m t1 = Except.ok m2) →
      t1.hash ≠ t2.hash →
      lookupKey db.accepted t2.hash = none →
      lookupKey (process_consensus_outcome env db outcome).accepted t1.hash
          = some ⟨outcome.epoch, t1⟩ ∧
        lookupKey (process_consensus_outcome env db outcome).accepted t2.hash = none ∧
        lookupKey (process_consensus_outcome env db outcome).proposed t2.hash
          = lookupKey db.proposed t2.hash) := by
  constructor
  · intro pt hpt
    rw [process_outcome_proposed_eq]
    exact lookupKey_foldl_deleteKey_none _ _ _ ⟨pt, hpt, rfl⟩
  · intro p1 p2 t1 t2 hI hconf happly hne hacc2
    have hfiltered : filter_conflicts (transactionItems outcome.contributions)
        = [(p1, t1)] := by
      rw [hI, filter_conflicts, List.foldl_cons, List.foldl_cons, List.foldl_nil]
      simp only [List.any_nil, List.any_cons, hconf, Bool.true_or, Bool.or_self,
        Bool.false_eq_true, if_false, if_true, List.nil_append]
    obtain ⟨m2, hm2⟩ := happly (env.mint_begin_epoch
      (env.wallet_begin_epoch db.modules (walletItems outcome.contributions))
      (mintItems outcome.contributions))
    have hres : process_consensus_outcome env db outcome
        = { proposed := deleteKey db.proposed t1.hash
            accepted := insertKey db.accepted t1.hash ⟨outcome.epoch, t1⟩
            modules := env.mint_end_epoch (env.wallet_end_epoch m2) } := by
      rw [process_consensus_outcome, hfiltered, List.foldl_cons, List.foldl_nil,
        outcomeStep]
      simp only [hm2]
    rw [hres]
    refine ⟨lookupKey_insertKey_self _ _ _, ?_, ?_⟩
    · rw [lookupKey_insertKey_ne _ _ _ _ (fun hx => hne hx.symm)]
      exact hacc2
    · exact lookupKey_deleteKey_ne _ _ _ (fun hx => hne hx.symm)

/-- Witness for the amended C3: the double-spend scenario at concrete
inputs. -/
theorem process_outcome_proposed_removal_witness :
    lookupKey (process_consensus_outcome (testEnv (fun _ => none) (fun _ => none))
        dbAB outcomeAB).accepted txA.hash = some ⟨outcomeAB.epoch, txA⟩ ∧
      lookupKey (process_consensus_outcome (testEnv (fun _ => none) (fun _ => none))
        dbAB outcomeAB).accepted txB.hash = none ∧
      lookupKey (process_consensus_outcome (testEnv (fun _ => none) (fun _ => none))
        dbAB outcomeAB).proposed txB.hash = lookupKey dbAB.proposed txB.hash :=
  (process_outcome_proposed_removal (testEnv (fun _ => none) (fun _ => none))
      dbAB outcomeAB).2 0 1 txA txB (by decide) (by decide)
    (fun m => by cases m; exact ⟨(), rfl⟩) (by decide) (by decide)

/-! mapM lemmas over `Except` for claim C8. -/

theorem mapM_ok_of_forall {α β ε : Type} (f : α → Except ε β) (l : List α)
    (h : ∀ x ∈ l, ∃ y, f x = Except.ok y) :
    ∃ outs : List β, List.mapM f l = Except.ok outs ∧ outs.length = l.length ∧
      ∀ i (hi : i < l.length) (ho : i < outs.length),
        f (l.get ⟨i, hi⟩) = Except.ok (outs.get ⟨i, ho⟩) := by
  induction l with
  | nil =>
    refine ⟨[], rfl, rfl, ?_⟩
    intro i hi _
    exact absurd hi (Nat.not_lt_zero i)
  | cons a rest ih =>
    obtain ⟨y, hy⟩ := h a (List.mem_cons_self a rest)
    obtain ⟨outs, houts, hlen, hpt⟩ := ih (fun x hx => h x (List.mem_cons_of_mem a hx))
    refine ⟨y :: outs, ?_, by simp [hlen], ?_⟩
    · rw [List.mapM_cons, hy, except_bind_ok, houts, except_bind_ok, except_pure]
    · intro i hi ho
      cases i with
      | zero => simpa using hy
      | succ i => simpa using hpt i (by simpa using hi) (by simpa using ho)

theorem mapM_error_of_not_all {α β ε : Type} (f : α → Except ε β) (l : List α)
    (h : ¬ ∀ x ∈ l, ∃ y, f x = Except.ok y) :
    ∃ e, List.mapM f l = Except.error e := by
  induction l with
  | nil => exact absurd (fun x hx => absurd hx (List.not_mem_nil x)) h
  | cons a rest ih =>
    cases hfa : f a with
    | error e =>
      exact ⟨e, by rw [List.mapM_cons, hfa, except_bind_error]⟩
    | ok y =>
      have hrest : ¬ ∀ x ∈ rest, ∃ y, f x = Except.ok y := by
        intro hall
        refine h ?_
        intro x hx
        rcases List.mem_cons.mp hx with h1 | h2
        · exact ⟨y, by rw [h1, hfa]⟩
        · exact hall x h2
      obtain ⟨e, he⟩ := ih hrest
      exact ⟨e, by rw [List.mapM_cons, hfa, except_bind_ok, he, except_bind_error]⟩

/-- Claim C8: `transaction_status` returns Accepted with the per-output
module statuses in enumeration order when the transaction is accepted and
every status is present (Mint statuses for Coins outputs, Wallet statuses
for PegOut outputs); a missing status is the fatal inconsistency;
otherwise a proposed entry gives AwaitingConsensus; otherwise none. -/
theorem transaction_status_characterization {M : Type} (env : Env M) (db : DB M)
    (txid : TxHash) :
    (∀ acc, lookupKey db.accepted txid = some acc →
      ((∀ p ∈ acc.transaction.outputs.enum,
          (output_status_at env db.modules txid p.1 p.2).isSome = true) →
        ∃ outs, transaction_status env db txid
            = Except.ok (some (TransactionStatus.Accepted acc.epoch outs)) ∧
          outs.length = acc.transaction.outputs.length ∧
          ∀ i (hi : i < acc.transaction.outputs.length) (ho : i < outs.length),
            some (outs.get ⟨i, ho⟩)
              = output_status_at env db.modules txid i
                  (acc.transaction.outputs.get ⟨i, hi⟩)) ∧
      ((∃ p ∈ acc.transaction.outputs.enum,
          output_status_at env db.modules txid p.1 p.2 = none) →
        transaction_status env db txid
          = Except.error Inconsistency.MissingOutputStatus)) ∧
    (lookupKey db.accepted txid = none → (lookupKey db.proposed txid).isSome = true →
      transaction_status env db txid
        = Except.ok (some TransactionStatus.AwaitingConsensus)) ∧
    (lookupKey db.accepted txid = none → lookupKey db.proposed txid = none →
      transaction_status env db txid = Except.ok none) := by
  refine ⟨?_, ?_, ?_⟩
  · intro acc hacc
    constructor
    · intro hall
      obtain ⟨outs, houts, hlen, hpt⟩ := mapM_ok_of_forall
        (fun p => match output_status_at env db.modules txid p.1 p.2 with
          | some oo => Except.ok oo
          | none => Except.error Inconsistency.MissingOutputStatus)
        acc.transaction.outputs.enum
        (fun p hp => by
          have hsome := hall p hp
          cases hos : output_status_at env db.modules txid p.1 p.2 with
          | some oo => exact ⟨oo, by simp only [hos]⟩
          | none =>
            rw [hos] at hsome
            exact absurd hsome (by rw [Option.isSome_none]; exact Bool.false_ne_true))
      refine ⟨outs, ?_, by rw [hlen, List.enum_length], ?_⟩
      · rw [transaction_status]
        simp only [hacc, houts, except_bind_ok, except_pure]
      · intro i hi ho
        have hi2 : i < acc.transaction.outputs.enum.length := by
          rw [List.enum_length]
          exact hi
        have hthis := hpt i hi2 ho
        simp only [List.get_eq_getElem, List.getElem_enum] at hthis
        simp only [List.get_eq_getElem]
        cases hos : output_status_at env db.modules txid i (acc.transaction.outputs[i]) with
        | some oo =>
          simp only [hos] at hthis
          injection hthis with hv
          rw [hv]
        | none =>
          simp only [hos] at hthis
          cases hthis
    · intro hnone
      obtain ⟨p, hp, hpnone⟩ := hnone
      obtain ⟨e, he⟩ := mapM_error_of_not_all
        (fun p => match output_status_at env db.modules txid p.1 p.2 with
          | some oo => Except.ok oo
          | none => Except.error Inconsistency.MissingOutputStatus)
        acc.transaction.outputs.enum
        (by
          intro hall
          obtain ⟨y, hy⟩ := hall p hp
          simp only [hpnone] at hy
          cases hy)
      rw [transaction_status]
      cases e
      simp only [hacc, he, except_bind_error]
  · intro hacc hprop
    rw [transaction_status]
    simp only [hacc, hprop, if_true]
  · intro hacc hprop
    rw [transaction_status]
    simp only [hacc, hprop, Option.isSome_none, Bool.false_eq_true, if_false]

/-- Witness for C8: the accepted two-output transaction reports a Mint
outcome then a Wallet outcome. -/
theorem transaction_status_characterization_witness :
    ∃ outs, transaction_status envW dbW 5
        = Except.ok (some (TransactionStatus.Accepted
            (⟨3, txW⟩ : AcceptedTransaction).epoch outs)) ∧
      outs.length = (⟨3, txW⟩ : AcceptedTransaction).transaction.outputs.length ∧
      ∀ i (hi : i < (⟨3, txW⟩ : AcceptedTransaction).transaction.outputs.length)
        (ho : i < outs.length),
        some (outs.get ⟨i, ho⟩)
          = output_status_at envW dbW.modules 5 i
              ((⟨3, txW⟩ : AcceptedTransaction).transaction.outputs.get ⟨i, hi⟩) :=
  ((transaction_status_characterization envW dbW 5).1 ⟨3, txW⟩ (by decide)).1 (by decide)

end Minimint
